import Mathlib

/-!
Verification of the `silent-crawler` repository (src/src/main.rs).

The development shallowly embeds the crawler's own code:

* `SilentCrawler.new`, `parse_robots_txt`, `is_allowed`, `is_same_domain`,
  `normalize_url`, `extract_links` are translated directly from
  `src/src/main.rs` (line references in the doc comments).
* The `url` crate (an external collaborator, spec section 6) is modelled by the
  `Url` structure together with `Url.parse`, `Url.join` and `Url.render`.
  The model covers absolute URLs of the form `scheme://host...`,
  cannot-be-a-base URLs `scheme:opaque`, path-absolute, protocol-relative,
  query, fragment and plain relative references.  Userinfo/port subdivision of
  the authority, percent-encoding and dot-segment removal are not modelled;
  host strings are kept verbatim.  Special schemes (http, https, ws, wss, ftp,
  file) get the default path `/`, non-special schemes may have an empty path,
  matching the collaborator's observable behaviour on the inputs used here.
* HTTP transport and HTML parsing are collaborators as well: a crawl run is
  parameterised by `fetch : String → Option String` (the body returned for a
  URL, `none` for any failure or non-HTML response, as in `fetch_url`) and
  `hrefs : String → List String` (the `a[href]` attribute values the HTML
  query collaborator returns for a body).
* The concurrent driver `crawl_concurrent`/`process_url` (src lines 343-409)
  is embedded as a small-step machine over `CState`; a schedule (`List Ev`)
  chooses which queued future receives its first poll and which in-flight
  future completes, which is exactly the freedom `FuturesUnordered` has: a
  future that was already awoken may be returned by the next poll of the
  stream before newly pushed futures receive their first poll.
-/

/-- Splits a character list at the first occurrence of any delimiter in `ds`:
the first component is the longest delimiter-free front segment, the second
component starts with the first delimiter (or is empty). -/
def breakAt (ds : List Char) : List Char → List Char × List Char
  | [] => ([], [])
  | c :: cs =>
    if c ∈ ds then ([], c :: cs)
    else
      let r := breakAt ds cs
      (c :: r.1, r.2)

theorem breakAt_all (ds : List Char) (l : List Char) (h : ∀ c ∈ l, c ∉ ds) :
    breakAt ds l = (l, []) := by
  induction l with
  | nil => rfl
  | cons c cs ih =>
    have hc : c ∉ ds := h c (by simp)
    simp only [breakAt, if_neg hc]
    rw [ih (fun x hx => h x (by simp [hx]))]

theorem breakAt_hit (ds : List Char) (l₁ : List Char) (d : Char) (l₂ : List Char)
    (h : ∀ c ∈ l₁, c ∉ ds) (hd : d ∈ ds) :
    breakAt ds (l₁ ++ d :: l₂) = (l₁, d :: l₂) := by
  induction l₁ with
  | nil => simp [breakAt, hd]
  | cons c cs ih =>
    have hc : c ∉ ds := h c (by simp)
    have h2 := ih (fun x hx => h x (by simp [hx]))
    show breakAt ds (c :: (cs ++ d :: l₂)) = (c :: cs, d :: l₂)
    rw [breakAt, if_neg hc]
    simp [h2]

theorem breakAt_fst_not_mem (ds : List Char) (l : List Char) :
    ∀ c ∈ (breakAt ds l).1, c ∉ ds := by
  induction l with
  | nil => simp [breakAt]
  | cons c cs ih =>
    by_cases hc : c ∈ ds
    · simp [breakAt, hc]
    · simp only [breakAt, if_neg hc]
      intro x hx
      rcases List.mem_cons.mp hx with h | h
      · exact h ▸ hc
      · exact ih x h

theorem breakAt_snd_shape (ds : List Char) (l : List Char) :
    (breakAt ds l).2 = [] ∨
      ∃ d l', (breakAt ds l).2 = d :: l' ∧ d ∈ ds := by
  induction l with
  | nil => left; rfl
  | cons c cs ih =>
    by_cases hc : c ∈ ds
    · right; exact ⟨c, cs, by simp [breakAt, hc], hc⟩
    · simpa [breakAt, hc] using ih

/-- Inserts `x` into list-set `l` unless already present (models
`HashSet::insert`; insertion order of first occurrences is kept, which is one
admissible iteration order of the unordered Rust `HashSet`). -/
def insertIfAbsent (x : String) (l : List String) : List String :=
  if x ∈ l then l else l ++ [x]

theorem mem_insertIfAbsent (x y : String) (l : List String) :
    y ∈ insertIfAbsent x l ↔ y = x ∨ y ∈ l := by
  unfold insertIfAbsent
  by_cases h : x ∈ l
  · simp only [if_pos h]
    constructor
    · intro hy; exact Or.inr hy
    · rintro (rfl | hy) <;> [exact h; exact hy]
  · simp [if_neg h, or_comm]

theorem mk_data (s : String) : String.mk s.data = s := rfl

theorem str_append_data (a b : String) : (a ++ b).data = a.data ++ b.data := rfl

theorem getLast?_append_right {α : Type} (l₁ l₂ : List α) (h : l₂ ≠ []) :
    (l₁ ++ l₂).getLast? = l₂.getLast? :=
  List.getLast?_append_of_ne_nil l₁ h

/-- Model of the `url` crate's URL value (external collaborator, spec
section 6).  `host = none` encodes a cannot-be-a-base URL (`scheme:opaque`);
the authority is kept as a single verbatim host string. -/
structure Url where
  scheme : String
  host : Option String
  path : String
  query : Option String
  fragment : Option String

/-- Special schemes of the URL standard: their parsed path defaults to `/`. -/
def isSpecial (s : String) : Bool :=
  s = "http" || s = "https" || s = "ws" || s = "wss" || s = "ftp" || s = "file"

/-- Characters allowed in a URL scheme. -/
def isSchemeChar (c : Char) : Bool :=
  c.isAlpha || c.isDigit || c = '+' || c = '-' || c = '.'

/-- Validity of a scheme as a character list: nonempty, starts with a letter,
all characters scheme characters. -/
def validSchemeL : List Char → Bool
  | [] => false
  | c :: cs => c.isAlpha && (c :: cs).all isSchemeChar

/-- Serialized characters of the query/fragment tail of a URL. -/
def qfChars : Option String → Option String → List Char
  | some q, some f => '?' :: q.data ++ '#' :: f.data
  | some q, none => '?' :: q.data
  | none, some f => '#' :: f.data
  | none, none => []

/-- Serialized characters of the authority part. -/
def hostChars : Option String → List Char
  | some h => '/' :: '/' :: h.data
  | none => []

/-- Serialized characters of a whole URL. -/
def urlChars (u : Url) : List Char :=
  u.scheme.data ++ ':' :: (hostChars u.host ++ u.path.data ++ qfChars u.query u.fragment)

/-- Model of `Url::to_string` on the modelled URL values. -/
def Url.render (u : Url) : String :=
  String.mk (urlChars u)

/-- Builds a `Url` from already-split scheme/host/path plus the raw
query-and-fragment tail (used by both the parser and `join`). -/
def finishUrl (sch : List Char) (host : Option (List Char)) (path : List Char)
    (rest : List Char) : Url :=
  match rest with
  | '?' :: r =>
    let qf := breakAt ['#'] r
    { scheme := String.mk sch, host := host.map String.mk, path := String.mk path,
      query := some (String.mk qf.1),
      fragment := match qf.2 with | '#' :: f => some (String.mk f) | _ => none }
  | '#' :: f =>
    { scheme := String.mk sch, host := host.map String.mk, path := String.mk path,
      query := none, fragment := some (String.mk f) }
  | _ =>
    { scheme := String.mk sch, host := host.map String.mk, path := String.mk path,
      query := none, fragment := none }

/-- Handles everything after `scheme:` during parsing: authority form
`//host...`, or a cannot-be-a-base opaque remainder. -/
def parseAfterScheme (sch rest1 : List Char) : Option Url :=
  if rest1.take 2 = ['/', '/'] then
    let rest2 := rest1.drop 2
    let hr := breakAt ['/', '?', '#'] rest2
    if hr.1 = [] then none
    else
      let pr := breakAt ['?', '#'] hr.2
      let pathCs := if pr.1 = [] ∧ isSpecial (String.mk sch) then ['/'] else pr.1
      some (finishUrl sch (some hr.1) pathCs pr.2)
  else
    if isSpecial (String.mk sch) then none
    else
      let pr := breakAt ['?', '#'] rest1
      some (finishUrl sch none pr.1 pr.2)

/-- Model of `Url::parse` at the character level.  Fails on a missing or
invalid scheme, an empty host after `//`, and on special-scheme URLs without
an authority (the crate would reinterpret those; such inputs play no role
here). -/
def parseChars (cs : List Char) : Option Url :=
  let sr := breakAt [':'] cs
  match sr.2 with
  | ':' :: rest1 => if validSchemeL sr.1 then parseAfterScheme sr.1 rest1 else none
  | _ => none

/-- Model of `Url::parse` on strings. -/
def Url.parse (s : String) : Option Url :=
  parseChars s.data

/-- Wellformedness of a `Url` value: the closure properties enjoyed by every
parser/join output, which are exactly what makes serialization reparse to the
same value. -/
structure Url.WF (u : Url) : Prop where
  scheme_ok : validSchemeL u.scheme.data = true
  host_ne : ∀ h, u.host = some h → h.data ≠ []
  host_chars : ∀ h, u.host = some h → ∀ c ∈ h.data, c ∉ (['/', '?', '#'] : List Char)
  path_start : u.host.isSome = true → u.path.data = [] ∨ u.path.data.take 1 = ['/']
  path_special : u.host.isSome = true → isSpecial u.scheme = true → u.path.data ≠ []
  nohost_scheme : u.host = none → isSpecial u.scheme = false
  nohost_path : u.host = none → u.path.data.take 2 ≠ ['/', '/']
  path_chars : ∀ c ∈ u.path.data, c ∉ (['?', '#'] : List Char)
  query_chars : ∀ q, u.query = some q → '#' ∉ q.data

theorem schemeChar_not_delim (c : Char) (h : isSchemeChar c = true) :
    c ≠ ':' ∧ c ≠ '/' ∧ c ≠ '?' ∧ c ≠ '#' := by
  refine ⟨?_, ?_, ?_, ?_⟩ <;> rintro rfl <;> simp [isSchemeChar] at h

theorem validScheme_mem (l : List Char) (h : validSchemeL l = true) :
    ∀ c ∈ l, isSchemeChar c = true := by
  match l with
  | [] => simp [validSchemeL] at h
  | c :: cs =>
    simp only [validSchemeL, Bool.and_eq_true, List.all_eq_true] at h
    exact h.2

theorem breakAt_append (ds l₁ l₂ : List Char) (h : ∀ c ∈ l₁, c ∉ ds)
    (h2 : l₂ = [] ∨ ∃ d r, l₂ = d :: r ∧ d ∈ ds) :
    breakAt ds (l₁ ++ l₂) = (l₁, l₂) := by
  rcases h2 with rfl | ⟨d, r, rfl, hd⟩
  · simpa using breakAt_all ds l₁ h
  · exact breakAt_hit ds l₁ d r h hd

theorem qf_shape (ds : List Char) (q f : Option String) (h1 : '?' ∈ ds) (h2 : '#' ∈ ds) :
    qfChars q f = [] ∨ ∃ d r, qfChars q f = d :: r ∧ d ∈ ds := by
  cases q with
  | some q =>
    cases f with
    | some f => right; exact ⟨'?', _, rfl, h1⟩
    | none => right; exact ⟨'?', _, rfl, h1⟩
  | none =>
    cases f with
    | some f => right; exact ⟨'#', _, rfl, h2⟩
    | none => left; rfl

theorem finishUrl_qf (sch : List Char) (host : Option (List Char)) (path : List Char)
    (q f : Option String) (hq : ∀ s, q = some s → '#' ∉ s.data) :
    finishUrl sch host path (qfChars q f) =
      { scheme := String.mk sch, host := host.map String.mk, path := String.mk path,
        query := q, fragment := f } := by
  cases q with
  | none => cases f with
    | none => rfl
    | some f => rfl
  | some q =>
    have hq' : ∀ c ∈ q.data, c ∉ (['#'] : List Char) := by
      intro c hc
      simp only [List.mem_singleton]
      rintro rfl
      exact hq q rfl hc
    cases f with
    | none =>
      show finishUrl sch host path ('?' :: q.data) = _
      have hb : breakAt ['#'] q.data = (q.data, []) := breakAt_all _ _ hq'
      simp [finishUrl, hb, mk_data]
    | some f =>
      show finishUrl sch host path ('?' :: (q.data ++ '#' :: f.data)) = _
      have hb : breakAt ['#'] (q.data ++ '#' :: f.data) = (q.data, '#' :: f.data) :=
        breakAt_hit _ _ _ _ hq' (by simp)
      simp [finishUrl, hb, mk_data]

theorem parseChars_eq (sch mid : List Char) (h2 : validSchemeL sch = true) :
    parseChars (sch ++ ':' :: mid) = parseAfterScheme sch mid := by
  have hs : ∀ c ∈ sch, c ∉ ([':'] : List Char) := by
    intro c hc
    simp only [List.mem_singleton]
    exact (schemeChar_not_delim c (validScheme_mem sch h2 c hc)).1
  simp only [parseChars]
  rw [breakAt_hit _ _ _ _ hs (by simp)]
  simp [h2]

theorem take1_eq_cons (l : List Char) (c : Char) (h : l.take 1 = [c]) : ∃ r, l = c :: r := by
  cases l with
  | nil => simp at h
  | cons a r =>
    simp only [List.take, List.cons.injEq] at h
    exact ⟨r, by rw [h.1.symm]⟩

theorem take2_append_ne (path qf : List Char)
    (h1 : path.take 2 ≠ ['/', '/'])
    (h2 : qf = [] ∨ ∃ d r, qf = d :: r ∧ d ∈ (['?', '#'] : List Char)) :
    (path ++ qf).take 2 ≠ ['/', '/'] := by
  match path with
  | c1 :: c2 :: t => simpa using h1
  | [c] =>
    rcases h2 with rfl | ⟨d, r, rfl, hd⟩
    · simp
    · intro hcontra
      simp only [List.cons_append, List.nil_append, List.take_succ_cons, List.take_zero,
        List.cons.injEq, and_true] at hcontra
      simp at hd
      rcases hd with rfl | rfl
      · exact absurd hcontra.2 (by decide)
      · exact absurd hcontra.2 (by decide)
  | [] =>
    rcases h2 with rfl | ⟨d, r, rfl, hd⟩
    · simp
    · intro hcontra
      simp only [List.nil_append, List.take_succ_cons, List.cons.injEq] at hcontra
      simp at hd
      rcases hd with rfl | rfl
      · exact absurd hcontra.1 (by decide)
      · exact absurd hcontra.1 (by decide)

theorem parseAfterScheme_auth (sch hl path : List Char) (q f : Option String)
    (hhl : hl ≠ []) (hhc : ∀ c ∈ hl, c ∉ (['/', '?', '#'] : List Char))
    (hp1 : path = [] ∨ path.take 1 = ['/'])
    (hp2 : isSpecial (String.mk sch) = true → path ≠ [])
    (hpc : ∀ c ∈ path, c ∉ (['?', '#'] : List Char))
    (hqc : ∀ s, q = some s → '#' ∉ s.data) :
    parseAfterScheme sch ('/' :: '/' :: (hl ++ (path ++ qfChars q f))) =
      some { scheme := String.mk sch, host := some (String.mk hl),
             path := String.mk path, query := q, fragment := f } := by
  have hsplit1 : breakAt ['/', '?', '#'] (hl ++ (path ++ qfChars q f))
      = (hl, path ++ qfChars q f) := by
    apply breakAt_append _ _ _ hhc
    rcases hp1 with rfl | hp
    · simpa using qf_shape ['/', '?', '#'] q f (by simp) (by simp)
    · obtain ⟨r, rfl⟩ := take1_eq_cons _ _ hp
      right; exact ⟨'/', _, rfl, by simp⟩
  have hsplit2 : breakAt ['?', '#'] (path ++ qfChars q f) = (path, qfChars q f) :=
    breakAt_append _ _ _ hpc (qf_shape _ q f (by simp) (by simp))
  have hcond : ¬ (path = [] ∧ isSpecial (String.mk sch) = true) := by
    rintro ⟨rfl, hs⟩
    exact hp2 hs rfl
  have hfin := finishUrl_qf sch (some hl) path q f hqc
  simp [parseAfterScheme, hsplit1, hsplit2, if_neg hhl, if_neg hcond, hfin]

theorem parseAfterScheme_nohost (sch path : List Char) (q f : Option String)
    (hns : isSpecial (String.mk sch) = false)
    (hnp : path.take 2 ≠ ['/', '/'])
    (hpc : ∀ c ∈ path, c ∉ (['?', '#'] : List Char))
    (hqc : ∀ s, q = some s → '#' ∉ s.data) :
    parseAfterScheme sch (path ++ qfChars q f) =
      some { scheme := String.mk sch, host := none, path := String.mk path,
             query := q, fragment := f } := by
  have hsplit : breakAt ['?', '#'] (path ++ qfChars q f) = (path, qfChars q f) :=
    breakAt_append _ _ _ hpc (qf_shape _ q f (by simp) (by simp))
  have htake : (path ++ qfChars q f).take 2 ≠ ['/', '/'] :=
    take2_append_ne path _ hnp (qf_shape _ q f (by simp) (by simp))
  simp only [parseAfterScheme]
  rw [if_neg htake, if_neg (by simp [hns] : ¬ isSpecial (String.mk sch) = true), hsplit,
    finishUrl_qf sch none path q f hqc]
  rfl

/-- Serialization followed by parsing is the identity on wellformed URL
values. -/
theorem parse_render (u : Url) (hu : u.WF) : parseChars (urlChars u) = some u := by
  obtain ⟨sch, host, path, q, f⟩ := u
  have hsch : validSchemeL sch.data = true := hu.scheme_ok
  show parseChars (sch.data ++ ':' :: (hostChars host ++ path.data ++ qfChars q f)) = _
  rw [parseChars_eq _ _ hsch]
  cases host with
  | some h =>
    have hmid : hostChars (some h) ++ path.data ++ qfChars q f
        = '/' :: '/' :: (h.data ++ (path.data ++ qfChars q f)) := by
      simp [hostChars]
    rw [hmid, parseAfterScheme_auth sch.data h.data path.data q f
      (hu.host_ne h rfl) (hu.host_chars h rfl)
      (hu.path_start rfl) (fun hs => hu.path_special rfl hs)
      hu.path_chars hu.query_chars]
  | none =>
    have hmid : hostChars none ++ path.data ++ qfChars q f = path.data ++ qfChars q f := by
      simp [hostChars]
    rw [hmid, parseAfterScheme_nohost sch.data path.data q f
      (hu.nohost_scheme rfl) (hu.nohost_path rfl) hu.path_chars hu.query_chars]

theorem WF_build (sch : List Char) (host : Option (List Char)) (path : List Char)
    (q f : Option String)
    (hsch : validSchemeL sch = true)
    (hhost : ∀ hl, host = some hl → hl ≠ [] ∧ ∀ c ∈ hl, c ∉ (['/', '?', '#'] : List Char))
    (hpath1 : host.isSome = true → path = [] ∨ path.take 1 = ['/'])
    (hpath2 : host.isSome = true → isSpecial (String.mk sch) = true → path ≠ [])
    (hns : host = none → isSpecial (String.mk sch) = false)
    (hnp : host = none → path.take 2 ≠ ['/', '/'])
    (hpc : ∀ c ∈ path, c ∉ (['?', '#'] : List Char))
    (hq : ∀ s, q = some s → '#' ∉ s.data) :
    Url.WF { scheme := String.mk sch, host := host.map String.mk,
             path := String.mk path, query := q, fragment := f } := by
  cases host with
  | some hl =>
    refine ⟨hsch, ?_, ?_, ?_, ?_, ?_, ?_, hpc, hq⟩
    · intro h' hh'
      injection hh' with hh'
      subst hh'
      exact (hhost hl rfl).1
    · intro h' hh'
      injection hh' with hh'
      subst hh'
      exact (hhost hl rfl).2
    · intro _
      exact hpath1 rfl
    · intro _ hsp
      exact hpath2 rfl hsp
    · intro hn
      cases hn
    · intro hn
      cases hn
  | none =>
    refine ⟨hsch, ?_, ?_, ?_, ?_, ?_, ?_, hpc, hq⟩
    · intro h' hh'
      cases hh'
    · intro h' hh'
      cases hh'
    · intro hs
      cases hs
    · intro hs
      cases hs
    · intro _
      exact hns rfl
    · intro _
      exact hnp rfl

theorem finishUrl_WF (sch : List Char) (host : Option (List Char)) (path rest : List Char)
    (hsch : validSchemeL sch = true)
    (hhost : ∀ hl, host = some hl → hl ≠ [] ∧ ∀ c ∈ hl, c ∉ (['/', '?', '#'] : List Char))
    (hpath1 : host.isSome = true → path = [] ∨ path.take 1 = ['/'])
    (hpath2 : host.isSome = true → isSpecial (String.mk sch) = true → path ≠ [])
    (hns : host = none → isSpecial (String.mk sch) = false)
    (hnp : host = none → path.take 2 ≠ ['/', '/'])
    (hpc : ∀ c ∈ path, c ∉ (['?', '#'] : List Char)) :
    (finishUrl sch host path rest).WF := by
  unfold finishUrl
  split
  · exact WF_build _ _ _ _ _ hsch hhost hpath1 hpath2 hns hnp hpc (by
      intro s hs
      injection hs with hs
      subst hs
      intro hmem
      exact breakAt_fst_not_mem ['#'] _ '#' hmem (by simp))
  · exact WF_build _ _ _ _ _ hsch hhost hpath1 hpath2 hns hnp hpc (by intro s hs; cases hs)
  · exact WF_build _ _ _ _ _ hsch hhost hpath1 hpath2 hns hnp hpc (by intro s hs; cases hs)

theorem breakAt_fst_take2_ne (ds l : List Char) (h : l.take 2 ≠ ['/', '/']) :
    ((breakAt ds l).1).take 2 ≠ ['/', '/'] := by
  match l with
  | [] => simp [breakAt]
  | c :: cs =>
    by_cases hc : c ∈ ds
    · simp [breakAt, hc]
    · simp only [breakAt, if_neg hc]
      match cs with
      | [] => simp [breakAt]
      | c2 :: cs2 =>
        by_cases hc2 : c2 ∈ ds
        · simp only [breakAt, if_pos hc2]
          intro hcontra
          simp at hcontra
        · simp only [breakAt, if_neg hc2]
          simpa using h

theorem parseAfterScheme_WF (sch rest1 : List Char) (u : Url)
    (hsch : validSchemeL sch = true) (h : parseAfterScheme sch rest1 = some u) : u.WF := by
  simp only [parseAfterScheme] at h
  split at h
  case isTrue htake =>
    split at h
    case isTrue => cases h
    case isFalse hne =>
      have hshape : (breakAt ['?', '#'] (breakAt ['/', '?', '#'] (rest1.drop 2)).2).1 = [] ∨
          ((breakAt ['?', '#'] (breakAt ['/', '?', '#'] (rest1.drop 2)).2).1).take 1 = ['/'] := by
        rcases breakAt_snd_shape ['/', '?', '#'] (rest1.drop 2) with h2 | ⟨d, l', h2, hd⟩
        · left; rw [h2]; rfl
        · rw [h2]
          simp only [List.mem_cons, List.not_mem_nil, or_false, List.mem_singleton] at hd
          rcases hd with rfl | rfl | rfl
          · right; simp [breakAt]
          · left; simp [breakAt]
          · left; simp [breakAt]
      injection h with h
      subst h
      apply finishUrl_WF
      · exact hsch
      · intro hl hhl
        injection hhl with hhl
        subst hhl
        exact ⟨hne, breakAt_fst_not_mem _ _⟩
      · intro _
        by_cases hcond : (breakAt ['?', '#'] (breakAt ['/', '?', '#'] (rest1.drop 2)).2).1 = [] ∧
            isSpecial (String.mk sch) = true
        · rw [if_pos hcond]; right; rfl
        · rw [if_neg hcond]; exact hshape
      · intro _ hsp
        by_cases hcond : (breakAt ['?', '#'] (breakAt ['/', '?', '#'] (rest1.drop 2)).2).1 = [] ∧
            isSpecial (String.mk sch) = true
        · rw [if_pos hcond]; simp
        · rw [if_neg hcond]
          intro hnil
          exact hcond ⟨hnil, hsp⟩
      · intro hn; cases hn
      · intro hn; cases hn
      · intro c hc
        by_cases hcond : (breakAt ['?', '#'] (breakAt ['/', '?', '#'] (rest1.drop 2)).2).1 = [] ∧
            isSpecial (String.mk sch) = true
        · rw [if_pos hcond] at hc
          simp only [List.mem_singleton] at hc
          subst hc
          decide
        · rw [if_neg hcond] at hc
          exact breakAt_fst_not_mem _ _ c hc
  case isFalse htake =>
    split at h
    case isTrue => cases h
    case isFalse hnsp =>
      injection h with h
      subst h
      apply finishUrl_WF
      · exact hsch
      · intro hl hhl; cases hhl
      · intro hs; cases hs
      · intro hs; cases hs
      · intro _
        simp only [Bool.not_eq_true] at hnsp
        exact hnsp
      · intro _
        exact breakAt_fst_take2_ne _ _ htake
      · exact breakAt_fst_not_mem _ _

theorem parse_WF (cs : List Char) (u : Url) (h : parseChars cs = some u) : u.WF := by
  simp only [parseChars] at h
  split at h
  · split at h
    · exact parseAfterScheme_WF _ _ _ (by assumption) h
    · cases h
  · cases h

/-- Drops the final path segment (everything after the last `/`, exclusive);
used for relative-reference resolution. -/
def dropLastSeg (p : List Char) : List Char :=
  (p.reverse.dropWhile (fun c => c ≠ '/')).reverse

/-- Model of `Url::join` (resolution of `input` against `base`), covering
absolute inputs, protocol-relative `//...`, path-absolute `/...`, query-only
`?...`, fragment-only `#...`, the empty reference and plain relative paths
(resolved against the base path without dot-segment processing, which no
fixture here uses).  Joining a non-absolute reference onto a
cannot-be-a-base URL fails, as in the crate. -/
def Url.join (base : Url) (input : String) : Option Url :=
  match parseChars input.data with
  | some u => some u
  | none =>
    if input.data.take 2 = ['/', '/'] then
      parseChars (base.scheme.data ++ ':' :: input.data)
    else
      match base.host with
      | none => none
      | some _ =>
        match input.data with
        | [] => some { base with fragment := none }
        | '/' :: _ =>
          let pr := breakAt ['?', '#'] input.data
          some (finishUrl base.scheme.data (base.host.map String.data) pr.1 pr.2)
        | '?' :: r =>
          let qf := breakAt ['#'] r
          let fr2 : Option String :=
            match qf.2 with | '#' :: fr => some (String.mk fr) | _ => none
          some { base with query := some (String.mk qf.1), fragment := fr2 }
        | '#' :: fr => some { base with fragment := some (String.mk fr) }
        | _ =>
          let pr := breakAt ['?', '#'] input.data
          let m0 := dropLastSeg base.path.data ++ pr.1
          let m := if m0.take 1 = ['/'] then m0 else '/' :: m0
          some (finishUrl base.scheme.data (base.host.map String.data) m pr.2)

theorem mem_dropWhile (p : Char → Bool) (l : List Char) (c : Char)
    (h : c ∈ l.dropWhile p) : c ∈ l := by
  induction l with
  | nil => simp at h
  | cons a t ih =>
    cases hpa : p a with
    | true =>
      simp only [List.dropWhile, hpa] at h
      exact List.mem_cons_of_mem a (ih h)
    | false =>
      simp only [List.dropWhile, hpa] at h
      exact h

theorem mem_dropLastSeg (p : List Char) (c : Char) (h : c ∈ dropLastSeg p) : c ∈ p := by
  unfold dropLastSeg at h
  rw [List.mem_reverse] at h
  exact List.mem_reverse.mp (mem_dropWhile _ _ _ h)

/-- Wellformedness of `base` propagates through `Url.join`. -/
theorem join_WF (base : Url) (input : String) (u : Url) (hb : base.WF)
    (h : Url.join base input = some u) : u.WF := by
  unfold Url.join at h
  split at h
  · injection h with h
    subst h
    exact parse_WF _ _ (by assumption)
  · split at h
    · exact parse_WF _ _ h
    · split at h
      · cases h
      · rename_i hhost0
        split at h
      -- empty reference
        · injection h with h
          subst h
          exact ⟨hb.scheme_ok, hb.host_ne, hb.host_chars, hb.path_start, hb.path_special,
            hb.nohost_scheme, hb.nohost_path, hb.path_chars, hb.query_chars⟩
      -- path-absolute reference
        · rename_i t heq
          injection h with h
          subst h
          apply finishUrl_WF
          · exact hb.scheme_ok
          · intro hl hhl
            rcases Option.map_eq_some'.mp hhl with ⟨hs0, hbase, rfl⟩
            exact ⟨hb.host_ne _ hbase, hb.host_chars _ hbase⟩
          · intro _
            right
            rw [heq]
            simp [breakAt]
          · intro _ _
            rw [heq]
            simp [breakAt]
          · intro hn
            rw [hhost0] at hn
            cases hn
          · intro hn
            rw [hhost0] at hn
            cases hn
          · exact breakAt_fst_not_mem _ _
      -- query-only reference
        · rename_i r heq
          injection h with h
          subst h
          refine ⟨hb.scheme_ok, hb.host_ne, hb.host_chars, hb.path_start, hb.path_special,
            hb.nohost_scheme, hb.nohost_path, hb.path_chars, ?_⟩
          intro s hs
          injection hs with hs
          subst hs
          intro hmem
          exact breakAt_fst_not_mem ['#'] r '#' hmem (by simp)
      -- fragment-only reference
        · injection h with h
          subst h
          exact ⟨hb.scheme_ok, hb.host_ne, hb.host_chars, hb.path_start, hb.path_special,
            hb.nohost_scheme, hb.nohost_path, hb.path_chars, hb.query_chars⟩
      -- plain relative reference
        · injection h with h
          subst h
          apply finishUrl_WF
          · exact hb.scheme_ok
          · intro hl hhl
            rcases Option.map_eq_some'.mp hhl with ⟨hs0, hbase, rfl⟩
            exact ⟨hb.host_ne _ hbase, hb.host_chars _ hbase⟩
          · intro _
            right
            by_cases hm : (dropLastSeg base.path.data ++
                (breakAt ['?', '#'] input.data).1).take 1 = ['/']
            · rw [if_pos hm]
              exact hm
            · rw [if_neg hm]
              rfl
          · intro _ _
            by_cases hm : (dropLastSeg base.path.data ++
                (breakAt ['?', '#'] input.data).1).take 1 = ['/']
            · rw [if_pos hm]
              intro hnil
              rw [hnil] at hm
              cases hm
            · rw [if_neg hm]
              simp
          · intro hn
            rw [hhost0] at hn
            cases hn
          · intro hn
            rw [hhost0] at hn
            cases hn
          · intro c hc
            by_cases hm : (dropLastSeg base.path.data ++
                (breakAt ['?', '#'] input.data).1).take 1 = ['/']
            · rw [if_pos hm] at hc
              rcases List.mem_append.mp hc with h1 | h1
              · exact hb.path_chars c (mem_dropLastSeg _ _ h1)
              · exact breakAt_fst_not_mem _ _ c h1
            · rw [if_neg hm] at hc
              rcases List.mem_cons.mp hc with rfl | h1
              · decide
              · rcases List.mem_append.mp h1 with h2 | h2
                · exact hb.path_chars c (mem_dropLastSeg _ _ h2)
                · exact breakAt_fst_not_mem _ _ c h2

/-- Characters of the last `/`-separated segment of a path: model of
`path.split('/').last().unwrap_or("")` (src line 211). -/
def lastSegChars (p : List Char) : List Char :=
  (p.reverse.takeWhile (fun c => c ≠ '/')).reverse

/-- Model of `str::contains('.')` (src line 211). -/
def containsDot (l : List Char) : Bool :=
  l.any (fun c => c = '.')

/-- Model of `str::ends_with('/')` (src line 212). -/
def endsWithSlash (s : String) : Bool :=
  decide (s.data.getLast? = some '/')

/-- Truncation of a string at its first `#`: model of
`find('#')` plus `truncate(pos)` (src lines 204-206). -/
def stripFrag (s : String) : String :=
  String.mk (breakAt ['#'] s.data).1

/-- Model of `SilentCrawler::normalize_url` (src lines 197-217): parse the
source URL, resolve the link against it, strip any fragment from the
serialization, then append `/` exactly when the resolved path is nonempty,
its last segment contains no `.`, and the string does not already end with
`/`.  Errors of parse/join propagate as `none` (`ParseError` in the
source). -/
def normalize_url (url source_url : String) : Option String :=
  match Url.parse source_url with
  | none => none
  | some base_url =>
    match Url.join base_url url with
    | none => none
    | some absolute_url =>
      let normalized0 := stripFrag absolute_url.render
      let path := absolute_url.path
      if path.data ≠ [] ∧ containsDot (lastSegChars path.data) = false ∧
          endsWithSlash normalized0 = false
      then some (normalized0 ++ "/")
      else some normalized0

/-- The pure post-processing part of `normalize_url`, as a function of the
already-resolved URL value. -/
def postProcess (u : Url) : String :=
  let base := stripFrag u.render
  if u.path.data ≠ [] ∧ containsDot (lastSegChars u.path.data) = false ∧
      endsWithSlash base = false
  then base ++ "/" else base

theorem normalize_shape (l s : String) (b u0 : Url)
    (hparse : Url.parse s = some b) (hjoin : Url.join b l = some u0) :
    normalize_url l s = some (postProcess u0) := by
  simp only [normalize_url, postProcess, hparse, hjoin]
  split <;> rfl

theorem normalize_cases (l s r : String) (h : normalize_url l s = some r) :
    ∃ b u0, Url.parse s = some b ∧ Url.join b l = some u0 ∧ r = postProcess u0 := by
  have h2 := h
  unfold normalize_url at h2
  split at h2
  · cases h2
  · rename_i b hb
    split at h2
    · cases h2
    · rename_i u0 hu0
      refine ⟨b, u0, hb, hu0, ?_⟩
      have h3 := normalize_shape l s b u0 hb hu0
      rw [h] at h3
      exact Option.some.inj h3

theorem WF_noFrag (u : Url) (hu : u.WF) : (⟨u.scheme, u.host, u.path, u.query, none⟩ : Url).WF :=
  ⟨hu.scheme_ok, hu.host_ne, hu.host_chars, hu.path_start, hu.path_special,
   hu.nohost_scheme, hu.nohost_path, hu.path_chars, hu.query_chars⟩

theorem eta_frag_none (u : Url) (hf : u.fragment = none) :
    (⟨u.scheme, u.host, u.path, u.query, none⟩ : Url) = u := by
  obtain ⟨s0, h0, p0, q0, f0⟩ := u
  have hf' : f0 = none := hf
  subst hf'
  rfl

theorem hash_not_mem_urlChars (u : Url) (hu : u.WF) (hf : u.fragment = none) :
    '#' ∉ urlChars u := by
  intro hmem
  unfold urlChars at hmem
  rw [hf] at hmem
  rcases List.mem_append.mp hmem with h1 | h1
  · have h2 := validScheme_mem _ hu.scheme_ok '#' h1
    simp [isSchemeChar] at h2
  · rcases List.mem_cons.mp h1 with h2 | h2
    · exact absurd h2 (by decide)
    · rcases List.mem_append.mp h2 with h3 | h3
      · rcases List.mem_append.mp h3 with h4 | h4
        · cases hh : u.host with
          | none => rw [hh] at h4; simp [hostChars] at h4
          | some hst =>
            rw [hh] at h4
            simp only [hostChars, List.mem_cons] at h4
            rcases h4 with h5 | h5 | h5
            · exact absurd h5 (by decide)
            · exact absurd h5 (by decide)
            · exact hu.host_chars hst hh '#' h5 (by simp)
        · exact hu.path_chars '#' h4 (by simp)
      · cases hq : u.query with
        | none => rw [hq] at h3; simp [qfChars] at h3
        | some q =>
          rw [hq] at h3
          simp only [qfChars, List.mem_cons] at h3
          rcases h3 with h5 | h5
          · exact absurd h5 (by decide)
          · exact hu.query_chars q hq h5

theorem urlChars_frag (sch : String) (host : Option String) (path : String)
    (q : Option String) (f : String) :
    urlChars ⟨sch, host, path, q, some f⟩ =
      urlChars ⟨sch, host, path, q, none⟩ ++ '#' :: f.data := by
  unfold urlChars
  cases q <;> simp [qfChars]

theorem urlChars_strip (u : Url) (hu : u.WF) :
    (breakAt ['#'] (urlChars u)).1 = urlChars ⟨u.scheme, u.host, u.path, u.query, none⟩ := by
  obtain ⟨sch, host, path, q, f⟩ := u
  cases f with
  | none =>
    have h := hash_not_mem_urlChars ⟨sch, host, path, q, none⟩ hu rfl
    rw [breakAt_all ['#'] _ (by
      intro c hc
      simp only [List.mem_singleton]
      rintro rfl
      exact h hc)]
  | some f =>
    have hwf2 : (⟨sch, host, path, q, none⟩ : Url).WF := WF_noFrag _ hu
    have h := hash_not_mem_urlChars _ hwf2 rfl
    rw [urlChars_frag, breakAt_hit _ _ _ _ (by
      intro c hc
      simp only [List.mem_singleton]
      rintro rfl
      exact h hc) (by simp)]

theorem stripFrag_render (u : Url) (hu : u.WF) :
    stripFrag u.render = Url.render ⟨u.scheme, u.host, u.path, u.query, none⟩ := by
  unfold stripFrag Url.render
  rw [show (String.mk (urlChars u)).data = urlChars u from rfl, urlChars_strip u hu]

theorem getLast?_cons_right {α : Type} (a : α) (l : List α) (h : l ≠ []) :
    (a :: l).getLast? = l.getLast? :=
  getLast?_append_right [a] l h

theorem take1_append_left {α : Type} (l m : List α) (h : l ≠ []) :
    (l ++ m).take 1 = l.take 1 := by
  cases l with
  | nil => exact absurd rfl h
  | cons a t => simp

theorem urlChars_getLast_path (u : Url) (hf : u.fragment = none) (hq : u.query = none)
    (hp : u.path.data ≠ []) : (urlChars u).getLast? = u.path.data.getLast? := by
  unfold urlChars
  rw [hf, hq]
  simp only [qfChars, List.append_nil]
  rw [getLast?_append_right _ _ (by simp)]
  rw [getLast?_cons_right _ _ (by simp [hp])]
  rw [getLast?_append_right _ _ hp]

theorem urlChars_getLast_query (u : Url) (q : String) (hf : u.fragment = none)
    (hq : u.query = some q) (hqe : q.data ≠ []) :
    (urlChars u).getLast? = q.data.getLast? := by
  unfold urlChars
  rw [hf, hq]
  simp only [qfChars]
  rw [getLast?_append_right _ _ (by simp)]
  rw [getLast?_cons_right _ _ (by simp)]
  rw [getLast?_append_right _ _ (by simp)]
  rw [getLast?_cons_right _ _ hqe]

/-- Every output of the normalization post-processing reparses to a wellformed
fragment-free URL value whose rendering is that very output and on which the
trailing-slash condition no longer fires. -/
theorem postProcess_reparse (u0 : Url) (hu : u0.WF) :
    ∃ u1 : Url, parseChars (postProcess u0).data = some u1 ∧
      Url.render u1 = postProcess u0 ∧ u1.fragment = none ∧
      ¬ (u1.path.data ≠ [] ∧ containsDot (lastSegChars u1.path.data) = false ∧
         endsWithSlash (stripFrag u1.render) = false) := by
  obtain ⟨sch, host, path, q, f⟩ := u0
  have hwv : (⟨sch, host, path, q, none⟩ : Url).WF := WF_noFrag _ hu
  have hstrip : stripFrag (Url.render ⟨sch, host, path, q, f⟩)
      = Url.render ⟨sch, host, path, q, none⟩ := stripFrag_render _ hu
  have hstripv : stripFrag (Url.render ⟨sch, host, path, q, none⟩)
      = Url.render ⟨sch, host, path, q, none⟩ := stripFrag_render _ hwv
  by_cases hcond : path.data ≠ [] ∧ containsDot (lastSegChars path.data) = false ∧
      endsWithSlash (stripFrag (Url.render ⟨sch, host, path, q, f⟩)) = false
  · -- the slash is appended
    obtain ⟨hne, hdot, hsl⟩ := hcond
    rw [hstrip] at hsl
    cases q with
    | some q0 =>
      have hq1 : (q0 ++ "/").data = q0.data ++ ['/'] := rfl
      have hwf1 : (⟨sch, host, path, some (q0 ++ "/"), none⟩ : Url).WF := by
        refine ⟨hu.scheme_ok, hu.host_ne, hu.host_chars, hu.path_start, hu.path_special,
          hu.nohost_scheme, hu.nohost_path, hu.path_chars, ?_⟩
        intro s hs
        injection hs with hs
        subst hs
        intro hmem
        rcases List.mem_append.mp (hq1 ▸ hmem) with h1 | h1
        · exact hu.query_chars q0 rfl h1
        · simp at h1
      have hrender : postProcess ⟨sch, host, path, some q0, f⟩
          = Url.render ⟨sch, host, path, some (q0 ++ "/"), none⟩ := by
        simp only [postProcess]
        rw [if_pos ⟨hne, hdot, by rw [hstrip]; exact hsl⟩, hstrip]
        show String.mk (urlChars ⟨sch, host, path, some q0, none⟩) ++ "/" = _
        have hc : urlChars ⟨sch, host, path, some q0, none⟩ ++ ['/']
            = urlChars ⟨sch, host, path, some (q0 ++ "/"), none⟩ := by
          unfold urlChars
          simp [qfChars, hq1]
        calc String.mk (urlChars ⟨sch, host, path, some q0, none⟩) ++ "/"
            = String.mk (urlChars ⟨sch, host, path, some q0, none⟩ ++ ['/']) := rfl
          _ = _ := by rw [hc]; rfl
      have hlast1 : endsWithSlash (Url.render ⟨sch, host, path, some (q0 ++ "/"), none⟩)
          = true := by
        unfold endsWithSlash Url.render
        rw [show (String.mk (urlChars ⟨sch, host, path, some (q0 ++ "/"), none⟩)).data
            = urlChars ⟨sch, host, path, some (q0 ++ "/"), none⟩ from rfl]
        rw [urlChars_getLast_query _ (q0 ++ "/") rfl rfl (by rw [hq1]; simp)]
        rw [hq1, getLast?_append_right _ ['/'] (by simp)]
        simp
      refine ⟨⟨sch, host, path, some (q0 ++ "/"), none⟩, ?_, ?_, rfl, ?_⟩
      · rw [hrender]
        exact parse_render _ hwf1
      · exact hrender.symm
      · rintro ⟨h1, h2, h3⟩
        rw [stripFrag_render _ hwf1] at h3
        rw [hlast1] at h3
        cases h3
    | none =>
      have hp1 : (path ++ "/").data = path.data ++ ['/'] := rfl
      have hvlast : (urlChars ⟨sch, host, path, none, none⟩).getLast?
          = path.data.getLast? := urlChars_getLast_path _ rfl rfl hne
      have hnoslash : path.data.getLast? ≠ some '/' := by
        intro hcontra
        unfold endsWithSlash Url.render at hsl
        rw [show (String.mk (urlChars ⟨sch, host, path, none, none⟩)).data
            = urlChars ⟨sch, host, path, none, none⟩ from rfl, hvlast, hcontra] at hsl
        simp at hsl
      have hwf1 : (⟨sch, host, path ++ "/", none, none⟩ : Url).WF := by
        refine ⟨hu.scheme_ok, hu.host_ne, hu.host_chars, ?_, ?_, hu.nohost_scheme, ?_, ?_, ?_⟩
        · intro hs
          right
          show (path.data ++ ['/']).take 1 = ['/']
          rw [take1_append_left _ _ hne]
          rcases hu.path_start hs with h1 | h1
          · exact absurd h1 hne
          · exact h1
        · intro _ _
          show path.data ++ ['/'] ≠ []
          simp
        · intro hn
          show (path.data ++ ['/']).take 2 ≠ ['/', '/']
          match path.data, hne, hnoslash, hu.nohost_path hn with
          | [c], _, hns, _ =>
            intro hcontra
            simp only [List.cons_append, List.nil_append, List.take_succ_cons, List.take_zero,
              List.cons.injEq, and_true] at hcontra
            subst hcontra
            simp at hns
          | c1 :: c2 :: t, _, _, hnp =>
            intro hcontra
            simp only [List.cons_append, List.take_succ_cons, List.take_zero,
              List.cons.injEq, and_true] at hcontra
            exact hnp (by simp [List.take_succ_cons, hcontra.1, hcontra.2])
        · intro c hc
          rcases List.mem_append.mp (hp1 ▸ hc) with h1 | h1
          · exact hu.path_chars c h1
          · simp only [List.mem_singleton] at h1
            subst h1
            decide
        · intro s hs
          cases hs
      have hrender : postProcess ⟨sch, host, path, none, f⟩
          = Url.render ⟨sch, host, path ++ "/", none, none⟩ := by
        simp only [postProcess]
        rw [if_pos ⟨hne, hdot, by rw [hstrip]; exact hsl⟩, hstrip]
        show String.mk (urlChars ⟨sch, host, path, none, none⟩) ++ "/" = _
        have hc : urlChars ⟨sch, host, path, none, none⟩ ++ ['/']
            = urlChars ⟨sch, host, path ++ "/", none, none⟩ := by
          unfold urlChars
          simp [qfChars, hp1]
        calc String.mk (urlChars ⟨sch, host, path, none, none⟩) ++ "/"
            = String.mk (urlChars ⟨sch, host, path, none, none⟩ ++ ['/']) := rfl
          _ = _ := by rw [hc]; rfl
      have hlast1 : endsWithSlash (Url.render ⟨sch, host, path ++ "/", none, none⟩)
          = true := by
        unfold endsWithSlash Url.render
        rw [show (String.mk (urlChars ⟨sch, host, path ++ "/", none, none⟩)).data
            = urlChars ⟨sch, host, path ++ "/", none, none⟩ from rfl]
        rw [urlChars_getLast_path _ rfl rfl (by rw [hp1]; simp)]
        rw [hp1, getLast?_append_right _ ['/'] (by simp)]
        simp
      refine ⟨⟨sch, host, path ++ "/", none, none⟩, ?_, ?_, rfl, ?_⟩
      · rw [hrender]
        exact parse_render _ hwf1
      · exact hrender.symm
      · rintro ⟨h1, h2, h3⟩
        rw [stripFrag_render _ hwf1] at h3
        rw [hlast1] at h3
        cases h3
  · -- no slash is appended
    have hpp : postProcess ⟨sch, host, path, q, f⟩
        = Url.render ⟨sch, host, path, q, none⟩ := by
      simp only [postProcess]
      rw [if_neg hcond, hstrip]
    refine ⟨⟨sch, host, path, q, none⟩, ?_, hpp.symm, rfl, ?_⟩
    · rw [hpp]
      exact parse_render _ hwv
    · rintro ⟨h1, h2, h3⟩
      rw [hstripv] at h3
      rw [hstrip] at hcond
      exact hcond ⟨h1, h2, h3⟩

/-- Fixed-point property of normalization: re-normalizing an output against
any parseable base yields the output unchanged. -/
theorem normalize_fixed (u0 : Url) (hu : u0.WF) (base2 : String)
    (hb2 : (Url.parse base2).isSome = true) :
    normalize_url (postProcess u0) base2 = some (postProcess u0) := by
  obtain ⟨u1, hparse1, hrender1, hfrag1, hcond1⟩ := postProcess_reparse u0 hu
  obtain ⟨b2, hb2'⟩ := Option.isSome_iff_exists.mp hb2
  have hwf1 : u1.WF := parse_WF _ _ hparse1
  have hs1 : stripFrag (Url.render u1) = Url.render u1 := by
    rw [stripFrag_render u1 hwf1, eta_frag_none u1 hfrag1]
  have hjoin : Url.join b2 (postProcess u0) = some u1 := by
    unfold Url.join
    rw [hparse1]
  rw [normalize_shape _ _ b2 u1 hb2' hjoin]
  have hpp1 : postProcess u1 = Url.render u1 := by
    simp only [postProcess]
    rw [if_neg hcond1]
    exact hs1
  rw [hpp1, hrender1]

/-- Model of `str::starts_with`, by structural recursion on characters. -/
def startsWithL : List Char → List Char → Bool
  | _, [] => true
  | [], _ :: _ => false
  | c :: cs, p :: ps => c == p && startsWithL cs ps

/-- Model of `str::starts_with` on strings. -/
def strStartsWith (s pre : String) : Bool :=
  startsWithL s.data pre.data

/-- Model of `str::ends_with` on strings. -/
def strEndsWith (s suf : String) : Bool :=
  startsWithL s.data.reverse suf.data.reverse

/-- Model of `str::trim` (whitespace at both ends), by structural
recursion. -/
def strTrim (s : String) : String :=
  String.mk (((s.data.dropWhile Char.isWhitespace).reverse.dropWhile
    Char.isWhitespace).reverse)

/-- Splitting a character list at every occurrence of a separator
character. -/
def splitOnChar (sep : Char) : List Char → List (List Char)
  | [] => [[]]
  | c :: cs =>
    if c == sep then [] :: splitOnChar sep cs
    else
      match splitOnChar sep cs with
      | [] => [[c]]
      | h :: t => (c :: h) :: t

/-- Model of `str::split(sep)` for a one-character separator. -/
def strSplitOnChar (sep : Char) (s : String) : List String :=
  (splitOnChar sep s.data).map String.mk

/-- Model of `str::to_lowercase` (ASCII; robots bodies in the fixtures are
ASCII). -/
def asciiLower (s : String) : String :=
  String.mk (s.data.map Char.toLower)

/-- Model of `str::lines` (src line 146): split on `\n`, strip one `\r` from
every line that was terminated by `\n`, and produce no final empty line for a
trailing newline. -/
def rustLines (s : String) : List String :=
  match (strSplitOnChar '\n' s).reverse with
  | [] => []
  | last :: revInit =>
    let front := (revInit.reverse).map
      (fun l => if strEndsWith l "\r" then String.mk l.data.dropLast else l)
    if last = "" then front else front ++ [last]

/-- Processing of one robots.txt line (src lines 146-156): lowercase the
trimmed line and, for `disallow:` directives, insert the trimmed segment
between the first and the second `:` (that is `split(':').nth(1)`) when it is
nonempty. -/
def robotsLine (acc : List String) (rawLine : String) : List String :=
  let line := asciiLower (strTrim rawLine)
  if strStartsWith line "disallow:" then
    match (strSplitOnChar ':' line).get? 1 with
    | some p0 =>
      let p := strTrim p0
      if p ≠ "" then insertIfAbsent p acc else acc
    | none => acc
  else acc

/-- Model of `SilentCrawler::parse_robots_txt` (src lines 137-166) as a
function of the robots fetch outcome: `none` models a transport error,
`some (ok, body)` a response whose status-success flag is `ok`.  Every
failure leaves the disallow set empty. -/
def parse_robots_txt (response : Option (Bool × String)) : List String :=
  match response with
  | some (true, text) => (rustLines text).foldl robotsLine []
  | _ => []

/-- The state-independent fields of `SilentCrawler` (src lines 59-71) that
the claims depend on; the HTTP client and the delay are owned by the
transport collaborator, and the directory/subdomain accumulators do not
enter any claim. -/
structure Crawler where
  base_url : String
  base_domain : String
  max_depth : Nat
  respect_robots : Bool
  concurrency : Nat
  disallowed_paths : List String

/-- Scheme-default rule of `SilentCrawler::new` (src lines 84-87): prepend
`http://` exactly when the seed starts with neither `http://` nor
`https://`. -/
def prefixSeed (base_url : String) : String :=
  if !(strStartsWith base_url "http://") && !(strStartsWith base_url "https://") then
    "http://" ++ base_url
  else base_url

/-- Model of `SilentCrawler::new` (src lines 74-135): apply the scheme
default, parse the result, take its host as the base domain (a parse failure
or missing host is the construction error), and load the robots policy when
enforcement is on. -/
def SilentCrawler.new (base_url : String) (max_depth : Nat) (respect_robots : Bool)
    (concurrency : Nat) (robotsResponse : Option (Bool × String)) : Option Crawler :=
  match Url.parse (prefixSeed base_url) with
  | none => none
  | some parsed =>
    match parsed.host with
    | none => none
    | some base_domain =>
      some { base_url := prefixSeed base_url, base_domain := base_domain,
             max_depth := max_depth, respect_robots := respect_robots,
             concurrency := concurrency,
             disallowed_paths :=
               if respect_robots then parse_robots_txt robotsResponse else [] }

/-- Model of `SilentCrawler::is_allowed` (src lines 168-185): always true
without enforcement; with enforcement, false exactly when the parsed path
starts with some disallowed path; unparsable URLs fall through to true. -/
def is_allowed (c : Crawler) (url : String) : Bool :=
  if !c.respect_robots then true
  else
    match Url.parse url with
    | some parsed => !(c.disallowed_paths.any (fun d => strStartsWith parsed.path d))
    | none => true

/-- Model of `SilentCrawler::is_same_domain` (src lines 187-195). -/
def is_same_domain (c : Crawler) (url : String) : Bool :=
  match Url.parse url with
  | some parsed =>
    match parsed.host with
    | some url_domain =>
      url_domain == c.base_domain || strEndsWith url_domain ("." ++ c.base_domain)
    | none => false
  | none => false

/-- Model of `SilentCrawler::extract_links` (src lines 219-249),
parameterised by the href values the HTML-query collaborator yields for the
document: skip non-navigational schemes and bare fragments, normalize, keep
same-domain targets, deduplicate (`HashSet`, kept in first-insertion
order). -/
def extractStep (c : Crawler) (source_url : String) (links : List String)
    (href : String) : List String :=
  if strStartsWith href "javascript:" || strStartsWith href "mailto:" ||
      strStartsWith href "tel:" || strStartsWith href "#" then links
  else
    match normalize_url href source_url with
    | some absolute_url =>
      if is_same_domain c absolute_url then insertIfAbsent absolute_url links else links
    | none => links

def extract_links (c : Crawler) (hrefs : List String) (source_url : String) : List String :=
  hrefs.foldl (extractStep c source_url) []

/-- One pending `process_url` future: its URL, its discovery-chain depth
(ghost data used only to state depth properties — the code itself ignores its
`_depth` argument, src line 379), and whether the future has received its
first poll, which is the moment the URL is inserted into the visited set
(src lines 380-384). -/
structure CTask where
  url : String
  depth : Nat
  polled : Bool

/-- State of one run of `crawl_concurrent` (src lines 343-377): the visited
set, the queue of live futures (`FuturesUnordered`), and a ghost log of every
`process_url` dispatch together with its discovery-chain depth. -/
structure CState where
  visited : List String
  queue : List CTask
  log : List (String × Nat)

/-- Scheduler events: `poll i` gives queue entry `i` its first poll,
`complete i` finishes entry `i` (its sleep, fetch and extraction) and lets
the driver expand the returned links.  Invalid indices and out-of-order
events are no-ops, so a schedule is just a list of events. -/
inductive Ev where
  | poll (i : Nat)
  | complete (i : Nat)

/-- The driver's loop over one completed page's links (src lines 364-374):
push each not-yet-visited allowed link as a new `process_url` future, and
break as soon as the queue length reaches the concurrency cap — the
remaining links of that page are discarded. -/
def pushTask (pd : Nat) (url : String) (s : CState) : CState :=
  { s with queue := s.queue ++ [⟨url, pd + 1, false⟩],
           log := s.log ++ [(url, pd + 1)] }

def expandLinks (c : Crawler) (pd : Nat) : List String → CState → CState
  | [], s => s
  | url :: rest, s =>
    if url ∉ s.visited ∧ is_allowed c url = true then
      if c.concurrency ≤ (pushTask pd url s).queue.length then pushTask pd url s
      else expandLinks c pd rest (pushTask pd url s)
    else expandLinks c pd rest s

/-- One scheduler step of the embedded `crawl_concurrent` loop.  `poll`
performs the front of `process_url` (src lines 379-384): insert the URL into
the visited set.  `complete` removes the future, obtains its links (fetch
then `extract_links`, src lines 403-408, empty on any fetch failure) and runs
the driver's expansion; expansion is guarded by `depth < max_depth`
(src line 363) where `depth` is `crawl_concurrent`'s own parameter — always 0
since the function is only entered once (src line 321) — so the guard is the
constant `0 < max_depth` and the per-task depth is never consulted. -/
def step (c : Crawler) (fetch : String → Option String) (hrefs : String → List String)
    (s : CState) (e : Ev) : CState :=
  match e with
  | .poll i =>
    match s.queue.get? i with
    | some t =>
      if t.polled then s
      else
        { s with visited := insertIfAbsent t.url s.visited,
                 queue := s.queue.set i ⟨t.url, t.depth, true⟩ }
    | none => s
  | .complete i =>
    match s.queue.get? i with
    | some t =>
      if t.polled then
        let s' : CState := { s with queue := s.queue.eraseIdx i }
        let links :=
          match fetch t.url with
          | some html => extract_links c (hrefs html) t.url
          | none => []
        if 0 < c.max_depth then expandLinks c t.depth links s' else s'
      else s
    | none => s

/-- Initial state of `crawl_concurrent(base_url, 0)` (src lines 343-358): the
guard `depth > max_depth` never fires at depth 0, and the seed is pushed when
not yet visited (the set starts empty, so only `is_allowed` matters). -/
def initState (c : Crawler) : CState :=
  if is_allowed c c.base_url = true then
    { visited := [], queue := [⟨c.base_url, 0, false⟩], log := [(c.base_url, 0)] }
  else
    { visited := [], queue := [], log := [] }

/-- A whole scheduled run of the crawl loop. -/
def runCrawl (c : Crawler) (fetch : String → Option String)
    (hrefs : String → List String) (evs : List Ev) : CState :=
  evs.foldl (step c fetch hrefs) (initState c)

theorem extractStep_mem (c : Crawler) (src : String) (links : List String)
    (href x : String) (hx : x ∈ extractStep c src links href) :
    x ∈ links ∨ (is_same_domain c x = true ∧ ∃ l, normalize_url l src = some x) := by
  unfold extractStep at hx
  split at hx
  · exact Or.inl hx
  · split at hx
    · rename_i abs habs
      split at hx
      · rcases (mem_insertIfAbsent _ _ _).mp hx with rfl | h
        · right
          exact ⟨by assumption, _, habs⟩
        · exact Or.inl h
      · exact Or.inl hx
    · exact Or.inl hx

theorem foldl_extract_mem (c : Crawler) (src : String) (hrefs acc : List String)
    (x : String) (hx : x ∈ hrefs.foldl (extractStep c src) acc) :
    x ∈ acc ∨ (is_same_domain c x = true ∧ ∃ l, normalize_url l src = some x) := by
  induction hrefs generalizing acc with
  | nil => exact Or.inl hx
  | cons a t ih =>
    rw [List.foldl_cons] at hx
    rcases ih (extractStep c src acc a) hx with h | h
    · exact extractStep_mem c src acc a x h
    · exact Or.inr h

/-- Every link surviving extraction is same-domain and is a normalization
output. -/
theorem extract_links_mem (c : Crawler) (hrefs : List String) (src : String)
    (x : String) (hx : x ∈ extract_links c hrefs src) :
    is_same_domain c x = true ∧ ∃ l, normalize_url l src = some x := by
  rcases foldl_extract_mem c src hrefs [] x hx with h | h
  · simp at h
  · exact h

theorem mem_of_mem_eraseIdx {α : Type} {l : List α} {i : Nat} {a : α}
    (h : a ∈ l.eraseIdx i) : a ∈ l := by
  induction l generalizing i with
  | nil => simp [List.eraseIdx] at h
  | cons b t ih =>
    cases i with
    | zero =>
      simp only [List.eraseIdx] at h
      exact List.mem_cons_of_mem _ h
    | succ n =>
      simp only [List.eraseIdx] at h
      rcases List.mem_cons.mp h with rfl | h2
      · simp
      · exact List.mem_cons_of_mem _ (ih h2)

theorem mem_of_mem_set {α : Type} {l : List α} {i : Nat} {a b : α}
    (h : a ∈ l.set i b) : a ∈ l ∨ a = b := by
  induction l generalizing i with
  | nil => simp [List.set] at h
  | cons x t ih =>
    cases i with
    | zero =>
      simp only [List.set] at h
      rcases List.mem_cons.mp h with rfl | h2
      · exact Or.inr rfl
      · exact Or.inl (List.mem_cons_of_mem _ h2)
    | succ n =>
      simp only [List.set] at h
      rcases List.mem_cons.mp h with rfl | h2
      · exact Or.inl (by simp)
      · rcases ih h2 with h3 | h3
        · exact Or.inl (List.mem_cons_of_mem _ h3)
        · exact Or.inr h3

theorem get?_mem_queue {α : Type} {l : List α} {i : Nat} {a : α}
    (h : l.get? i = some a) : a ∈ l := by
  induction l generalizing i with
  | nil => cases h
  | cons b t ih =>
    cases i with
    | zero =>
      injection h with h
      subst h
      simp
    | succ n => exact List.mem_cons_of_mem _ (ih h)

theorem lt_length_of_get? {α : Type} {l : List α} {i : Nat} {a : α}
    (h : l.get? i = some a) : i < l.length := by
  induction l generalizing i with
  | nil => cases h
  | cons b t ih =>
    cases i with
    | zero => simp
    | succ n => exact Nat.succ_lt_succ (ih h)

theorem length_eraseIdx_of_lt {α : Type} {l : List α} {i : Nat} (h : i < l.length) :
    (l.eraseIdx i).length = l.length - 1 := by
  induction l generalizing i with
  | nil => simp at h
  | cons b t ih =>
    cases i with
    | zero => simp [List.eraseIdx]
    | succ n =>
      have h2 : n < t.length := Nat.lt_of_succ_lt_succ h
      simp [List.eraseIdx, ih h2, Nat.succ_sub_one]
      omega

/-- Invariant carried through a crawl run: every visited URL and every queued
task URL is the seed string or satisfies `Q`. -/
def UrlInv (c : Crawler) (Q : String → Prop) (s : CState) : Prop :=
  (∀ u ∈ s.visited, u = c.base_url ∨ Q u) ∧
  (∀ t ∈ s.queue, t.url = c.base_url ∨ Q t.url)

theorem pushTask_inv (c : Crawler) (Q : String → Prop) (pd : Nat) (url : String)
    (s : CState) (hurl : Q url) (hs : UrlInv c Q s) : UrlInv c Q (pushTask pd url s) := by
  refine ⟨hs.1, ?_⟩
  intro tk htk
  rcases List.mem_append.mp htk with h1 | h1
  · exact hs.2 tk h1
  · simp only [List.mem_singleton] at h1
    subst h1
    exact Or.inr hurl

theorem expandLinks_inv (c : Crawler) (Q : String → Prop) (pd : Nat)
    (links : List String) (s : CState)
    (hlinks : ∀ x ∈ links, Q x) (hs : UrlInv c Q s) :
    UrlInv c Q (expandLinks c pd links s) := by
  induction links generalizing s with
  | nil => exact hs
  | cons a t ih =>
    unfold expandLinks
    split
    · split
      · exact pushTask_inv c Q pd a s (hlinks a (by simp)) hs
      · exact ih _ (fun x hx => hlinks x (by simp [hx]))
          (pushTask_inv c Q pd a s (hlinks a (by simp)) hs)
    · exact ih _ (fun x hx => hlinks x (by simp [hx])) hs

theorem step_inv (c : Crawler) (fetch : String → Option String)
    (hrefs : String → List String) (Q : String → Prop)
    (hQ : ∀ hs src x, x ∈ extract_links c hs src → Q x)
    (s : CState) (e : Ev) (hs : UrlInv c Q s) :
    UrlInv c Q (step c fetch hrefs s e) := by
  cases e with
  | poll i =>
    simp only [step]
    cases hget : s.queue.get? i with
    | none => exact hs
    | some t =>
      by_cases hp : t.polled
      · simp only [if_pos hp]
        exact hs
      · simp only [if_neg hp]
        constructor
        · intro u hu
          rcases (mem_insertIfAbsent _ _ _).mp hu with rfl | h1
          · exact hs.2 t (get?_mem_queue hget)
          · exact hs.1 u h1
        · intro tk htk
          rcases mem_of_mem_set htk with h1 | h1
          · exact hs.2 tk h1
          · subst h1
            exact hs.2 t (get?_mem_queue hget)
  | complete i =>
    simp only [step]
    cases hget : s.queue.get? i with
    | none => exact hs
    | some t =>
      by_cases hp : t.polled
      · simp only [if_pos hp]
        have hs' : UrlInv c Q { s with queue := s.queue.eraseIdx i } := by
          refine ⟨hs.1, ?_⟩
          intro tk htk
          exact hs.2 tk (mem_of_mem_eraseIdx htk)
        split
        · apply expandLinks_inv
          · intro x hx
            cases hfetch : fetch t.url with
            | none => rw [hfetch] at hx; cases hx
            | some html =>
              rw [hfetch] at hx
              exact hQ _ _ x hx
          · exact hs'
        · exact hs'
      · simp only [if_neg hp]
        exact hs

theorem runCrawl_inv (c : Crawler) (fetch : String → Option String)
    (hrefs : String → List String) (evs : List Ev) (Q : String → Prop)
    (hQ : ∀ hs src x, x ∈ extract_links c hs src → Q x) :
    UrlInv c Q (runCrawl c fetch hrefs evs) := by
  have hinit : UrlInv c Q (initState c) := by
    unfold initState
    split
    · refine ⟨by simp, ?_⟩
      intro t ht
      simp only [List.mem_singleton] at ht
      subst ht
      exact Or.inl rfl
    · exact ⟨by simp, by simp⟩
  have hfold : ∀ (evl : List Ev) (s : CState), UrlInv c Q s →
      UrlInv c Q (evl.foldl (step c fetch hrefs) s) := by
    intro evl
    induction evl with
    | nil => intro s hs; exact hs
    | cons e t ih =>
      intro s hs
      rw [List.foldl_cons]
      exact ih _ (step_inv c fetch hrefs Q hQ s e hs)
  exact hfold evs _ hinit

theorem expandLinks_len (c : Crawler) (pd : Nat) (links : List String) (s : CState)
    (h : s.queue.length < c.concurrency) :
    (expandLinks c pd links s).queue.length ≤ c.concurrency := by
  induction links generalizing s with
  | nil => exact Nat.le_of_lt h
  | cons a t ih =>
    unfold expandLinks
    have hlen : (pushTask pd a s).queue.length = s.queue.length + 1 := by
      simp [pushTask]
    split
    · split
      · rw [hlen]
        exact Nat.succ_le_of_lt h
      · rename_i hcap
        rw [hlen] at hcap
        exact ih _ (by omega)
    · exact ih _ h

theorem step_len (c : Crawler) (fetch : String → Option String)
    (hrefs : String → List String) (s : CState) (e : Ev)
    (h : s.queue.length ≤ c.concurrency) :
    (step c fetch hrefs s e).queue.length ≤ c.concurrency := by
  cases e with
  | poll i =>
    simp only [step]
    cases hget : s.queue.get? i with
    | none => exact h
    | some t =>
      by_cases hp : t.polled
      · simp only [if_pos hp]
        exact h
      · simp only [if_neg hp]
        simpa using h
  | complete i =>
    simp only [step]
    cases hget : s.queue.get? i with
    | none => exact h
    | some t =>
      by_cases hp : t.polled
      · simp only [if_pos hp]
        have hi : i < s.queue.length := lt_length_of_get? hget
        have herase : (s.queue.eraseIdx i).length = s.queue.length - 1 :=
          length_eraseIdx_of_lt hi
        split
        · apply expandLinks_len
          show (s.queue.eraseIdx i).length < c.concurrency
          omega
        · show (s.queue.eraseIdx i).length ≤ c.concurrency
          omega
      · simp only [if_neg hp]
        exact h

/-- Global queue-length bound: at every instant of every schedule, the number
of live `process_url` futures never exceeds the concurrency cap (provided the
cap is at least 1, as for the CLI default of 100). -/
theorem runCrawl_len (c : Crawler) (fetch : String → Option String)
    (hrefs : String → List String) (evs : List Ev) (hcap : 1 ≤ c.concurrency) :
    (runCrawl c fetch hrefs evs).queue.length ≤ c.concurrency := by
  have hinit : (initState c).queue.length ≤ c.concurrency := by
    unfold initState
    split
    · simpa using hcap
    · simp
  have hfold : ∀ (evl : List Ev) (s : CState), s.queue.length ≤ c.concurrency →
      (evl.foldl (step c fetch hrefs) s).queue.length ≤ c.concurrency := by
    intro evl
    induction evl with
    | nil => intro s hs; exact hs
    | cons e t ih =>
      intro s hs
      rw [List.foldl_cons]
      exact ih _ (step_len c fetch hrefs s e hs)
  exact hfold evs _ hinit

/-- Normal form of a crawl target as claim C4 states it, amended with the
nonempty-path proviso: the string contains no `#`, and if it parses to a URL
with a nonempty path whose last segment contains no `.`, it ends with `/`. -/
def normalizedTarget (r : String) : Bool :=
  (!(r.data.any (fun c => c = '#'))) &&
  (match Url.parse r with
   | some u =>
     decide (u.path.data = []) || containsDot (lastSegChars u.path.data) || endsWithSlash r
   | none => true)

theorem normalize_normalizedTarget (l s r : String)
    (h : normalize_url l s = some r) : normalizedTarget r = true := by
  obtain ⟨b, u0, hb, hj, rfl⟩ := normalize_cases l s r h
  have hwb : b.WF := parse_WF _ _ hb
  have hw0 : u0.WF := join_WF b l u0 hwb hj
  obtain ⟨u1, hparse1, hrender1, hfrag1, hcond1⟩ := postProcess_reparse u0 hw0
  have hwf1 : u1.WF := parse_WF _ _ hparse1
  have hs1 : stripFrag (Url.render u1) = Url.render u1 := by
    rw [stripFrag_render u1 hwf1, eta_frag_none u1 hfrag1]
  have hno : '#' ∉ (postProcess u0).data := by
    rw [← hrender1]
    exact hash_not_mem_urlChars u1 hwf1 hfrag1
  unfold normalizedTarget
  rw [Bool.and_eq_true]
  constructor
  · simp only [Bool.not_eq_true', List.any_eq_false, decide_eq_true_eq]
    intro c hc
    rintro rfl
    exact hno hc
  · rw [show Url.parse (postProcess u0) = some u1 from hparse1]
    rw [hs1, hrender1] at hcond1
    by_cases h1 : u1.path.data = []
    · simp [h1]
    · by_cases h2 : containsDot (lastSegChars u1.path.data) = true
      · simp [h2]
      · have h3 : endsWithSlash (postProcess u0) = true := by
          by_contra h4
          exact hcond1 ⟨h1, by simpa using h2, by simpa using h4⟩
        simp [h3]

theorem new_fields (seed : String) (d : Nat) (rr : Bool) (cc : Nat)
    (resp : Option (Bool × String)) (c : Crawler)
    (h : SilentCrawler.new seed d rr cc resp = some c) :
    c.base_url = prefixSeed seed ∧
    (∃ p, Url.parse (prefixSeed seed) = some p ∧ p.host = some c.base_domain) ∧
    c.max_depth = d ∧ c.respect_robots = rr ∧ c.concurrency = cc ∧
    c.disallowed_paths = (if rr then parse_robots_txt resp else []) := by
  unfold SilentCrawler.new at h
  cases hp : Url.parse (prefixSeed seed) with
  | none => rw [hp] at h; cases h
  | some p =>
    rw [hp] at h
    dsimp only at h
    cases hh : p.host with
    | none => rw [hh] at h; cases h
    | some bd =>
      rw [hh] at h
      dsimp only at h
      injection h with h
      subst h
      exact ⟨rfl, ⟨p, rfl, by rw [hh]⟩, rfl, rfl, rfl, rfl⟩

theorem new_same_domain (seed : String) (d : Nat) (rr : Bool) (cc : Nat)
    (resp : Option (Bool × String)) (c : Crawler)
    (h : SilentCrawler.new seed d rr cc resp = some c) :
    is_same_domain c c.base_url = true := by
  obtain ⟨hbu, ⟨p, hp, hhost⟩, _⟩ := new_fields seed d rr cc resp c h
  simp only [is_same_domain, hbu, hp, hhost]
  simp

/-- Claim C5's trailing-slash rule, as written (without the nonempty-path
condition the code has); stated from the spec's words for comparison with
`normalize_url`. -/
def normalizeSpecC5 (url source_url : String) : Option String :=
  match Url.parse source_url with
  | none => none
  | some base_url =>
    match Url.join base_url url with
    | none => none
    | some absolute_url =>
      let normalized0 := stripFrag absolute_url.render
      if containsDot (lastSegChars absolute_url.path.data) = false ∧
          endsWithSlash normalized0 = false
      then some (normalized0 ++ "/")
      else some normalized0

/-- Claim C8's reading of one robots line, as written: the path is the entire
remainder of the line after the `disallow:` directive; stated from the spec's
words for comparison with `robotsLine`. -/
def robotsSpecLine (acc : List String) (rawLine : String) : List String :=
  let line := asciiLower (strTrim rawLine)
  if strStartsWith line "disallow:" then
    let p := strTrim (String.mk (line.data.drop "disallow:".data.length))
    if p ≠ "" then insertIfAbsent p acc else acc
  else acc

/-- Claim C8's robots parser, built from `robotsSpecLine`. -/
def robotsSpec (response : Option (Bool × String)) : List String :=
  match response with
  | some (true, text) => (rustLines text).foldl robotsSpecLine []
  | _ => []

/-- Claim C9's notion of a seed that already carries a scheme; stated from
the spec's words for comparison with the code's `http://`/`https://` test. -/
def hasSchemeStr (s : String) : Bool :=
  match (breakAt [':'] s.data).2 with
  | ':' :: _ => validSchemeL (breakAt [':'] s.data).1
  | _ => false

theorem robotsLine_mem (acc : List String) (rawLine p : String) :
    p ∈ robotsLine acc rawLine ↔
      p ∈ acc ∨
      (strStartsWith (asciiLower (strTrim rawLine)) "disallow:" = true ∧
        ((strSplitOnChar ':' (asciiLower (strTrim rawLine))).get? 1).map strTrim = some p ∧
        p ≠ "") := by
  unfold robotsLine
  by_cases h1 : strStartsWith (asciiLower (strTrim rawLine)) "disallow:" = true
  · rw [if_pos h1]
    cases hget : (strSplitOnChar ':' (asciiLower (strTrim rawLine))).get? 1 with
    | none => simp [hget]
    | some p0 =>
      dsimp only
      by_cases h2 : strTrim p0 ≠ ""
      · rw [if_pos h2]
        rw [mem_insertIfAbsent]
        simp only [hget, h1, Option.map_some', Option.some.injEq, true_and]
        constructor
        · rintro (rfl | h)
          · exact Or.inr ⟨rfl, h2⟩
          · exact Or.inl h
        · rintro (h | ⟨rfl, _⟩)
          · exact Or.inr h
          · exact Or.inl rfl
      · rw [if_neg h2]
        simp only [hget, h1, Option.map_some', Option.some.injEq, true_and]
        constructor
        · exact Or.inl
        · rintro (h | ⟨rfl, hne⟩)
          · exact h
          · simp only [not_not] at h2
            exact absurd h2 hne
  · rw [if_neg h1]
    simp [h1]

theorem robots_foldl_mem (lines : List String) (acc : List String) (p : String) :
    p ∈ lines.foldl robotsLine acc ↔
      p ∈ acc ∨ ∃ ln ∈ lines,
        (strStartsWith (asciiLower (strTrim ln)) "disallow:" = true ∧
          ((strSplitOnChar ':' (asciiLower (strTrim ln))).get? 1).map strTrim = some p ∧
          p ≠ "") := by
  induction lines generalizing acc with
  | nil => simp
  | cons a t ih =>
    rw [List.foldl_cons, ih, robotsLine_mem]
    simp only [List.mem_cons]
    constructor
    · rintro ((h | h) | ⟨ln, hln, h⟩)
      · exact Or.inl h
      · exact Or.inr ⟨a, Or.inl rfl, h⟩
      · exact Or.inr ⟨ln, Or.inr hln, h⟩
    · rintro (h | ⟨ln, (rfl | hln), h⟩)
      · exact Or.inl (Or.inl h)
      · exact Or.inl (Or.inr h)
      · exact Or.inr ⟨ln, hln, h⟩

theorem normalize_err (l s : String) :
    (normalize_url l s).isSome = true ↔
      ∃ b u, Url.parse s = some b ∧ Url.join b l = some u := by
  constructor
  · intro h
    obtain ⟨r, hr⟩ := Option.isSome_iff_exists.mp h
    obtain ⟨b, u0, hb, hj, _⟩ := normalize_cases l s r hr
    exact ⟨b, u0, hb, hj⟩
  · rintro ⟨b, u, hb, hj⟩
    rw [normalize_shape l s b u hb hj]
    rfl

theorem normalize_fail_dropped (c : Crawler) (l s : String)
    (h : normalize_url l s = none) : extract_links c [l] s = [] := by
  unfold extract_links
  rw [List.foldl_cons, List.foldl_nil]
  unfold extractStep
  split
  · rfl
  · rw [h]

/-- Fixture: crawler over host `e.com`, depth 3, robots off, cap 10 (equals
the output of `SilentCrawler.new "http://e.com/" 3 false 10 none`). -/
def diamondCrawler : Crawler :=
  ⟨"http://e.com/", "e.com", 3, false, 10, []⟩

/-- Fixture transport: three HTML pages, everything else fails. -/
def diamondFetch : String → Option String := fun u =>
  if u = "http://e.com/" then some "pageS"
  else if u = "http://e.com/a/" then some "pageA"
  else if u = "http://e.com/b/" then some "pageB"
  else none

/-- Fixture HTML query: the seed links `/a/` and `/b/`; both of those link
`/c/`. -/
def diamondHrefs : String → List String := fun h =>
  if h = "pageS" then ["/a/", "/b/"]
  else if h = "pageA" then ["/c/"]
  else if h = "pageB" then ["/c/"]
  else []

/-- Schedule in which page `/b/`'s completion is polled off the stream before
the task for `/c/` (pushed when `/a/` completed) receives its first poll —
exactly what happens when `/b/`'s response arrives while the driver processes
`/a/`'s links.  The tail drains the queue. -/
def raceSchedule : List Ev :=
  [.poll 0, .complete 0, .poll 0, .poll 1, .complete 0, .complete 0,
   .poll 0, .poll 1, .complete 0, .complete 0]

/-- Fixture: crawler with `max_depth = 1`. -/
def chainCrawler : Crawler :=
  ⟨"http://e.com/", "e.com", 1, false, 10, []⟩

def chainFetch : String → Option String := fun u =>
  if u = "http://e.com/" then some "pageS"
  else if u = "http://e.com/a/" then some "pageA"
  else none

/-- Fixture chain: seed links `/a/`, which links `/b/`. -/
def chainHrefs : String → List String := fun h =>
  if h = "pageS" then ["/a/"]
  else if h = "pageA" then ["/b/"]
  else []

/-- Sequential schedule draining the chain crawl. -/
def chainSchedule : List Ev :=
  [.poll 0, .complete 0, .poll 0, .complete 0, .poll 0, .complete 0]

/-- Fixture: concurrency cap 1. -/
def capCrawler1 : Crawler :=
  ⟨"http://e.com/", "e.com", 3, false, 1, []⟩

/-- Fixture: concurrency cap 2, otherwise identical. -/
def capCrawler2 : Crawler :=
  ⟨"http://e.com/", "e.com", 3, false, 2, []⟩

def capFetch : String → Option String := fun u =>
  if u = "http://e.com/" then some "pageS" else none

def capHrefs : String → List String := fun h =>
  if h = "pageS" then ["/a/", "/b/"] else []

/-- Schedule draining the cap-1 crawl completely. -/
def lossSchedule : List Ev :=
  [.poll 0, .complete 0, .poll 0, .complete 0]

/-- Schedule draining the cap-2 crawl completely. -/
def lossSchedule2 : List Ev :=
  [.poll 0, .complete 0, .poll 0, .poll 1, .complete 0, .complete 0]

/-- Fixture: the crawler built from the fragment-carrying seed
`http://example.com/#top`. -/
def fragCrawler : Crawler :=
  ⟨"http://example.com/#top", "example.com", 3, false, 10, []⟩

/-- Claim C1 (code bug): the eligibility check and the visited-set insertion
are not atomic — the check happens in the driver (src lines 365-366) while
the insertion happens only when the pushed future is first polled (src lines
380-384).  On the diamond graph (seed links `/a/` and `/b/`, both link
`/c/`), with the real `FuturesUnordered` behaviour that an already-awoken
future (`/b/`) is returned before the freshly pushed `/c/` future is first
polled, `process_url` is dispatched twice for `http://e.com/c/`: the claim's
"exactly one admission" is violated, although the visited set, being a set,
still holds the URL once. -/
theorem c1_admission_race :
    ((runCrawl diamondCrawler diamondFetch diamondHrefs raceSchedule).log.filter
      (fun e => e.1 = "http://e.com/c/")).length = 2 ∧
    (runCrawl diamondCrawler diamondFetch diamondHrefs raceSchedule).visited.count
      "http://e.com/c/" = 1 ∧
    (runCrawl diamondCrawler diamondFetch diamondHrefs raceSchedule).queue.length = 0 ∧
    SilentCrawler.new "http://e.com/" 3 false 10 none = some diamondCrawler := by
  refine ⟨by decide, by decide, by decide, rfl⟩

/-- Claim C2 (code bug): the depth bound is not enforced.  `crawl_concurrent`
compares its own parameter `depth` (constantly 0, src line 363) against
`max_depth`, and `process_url` ignores its `_depth` argument (src line 379),
so with `maxDepth = 1` the link `/b/` extracted from the depth-1 page `/a/`
is admitted and fetched at discovery-chain depth 2. -/
theorem c2_depth_unbounded :
    chainCrawler.max_depth = 1 ∧
    ("http://e.com/b/", 2) ∈ (runCrawl chainCrawler chainFetch chainHrefs chainSchedule).log ∧
    "http://e.com/b/" ∈ (runCrawl chainCrawler chainFetch chainHrefs chainSchedule).visited ∧
    (runCrawl chainCrawler chainFetch chainHrefs chainSchedule).queue.length = 0 ∧
    SilentCrawler.new "http://e.com/" 1 false 10 none = some chainCrawler := by
  refine ⟨rfl, by decide, by decide, by decide, rfl⟩

/-- Counterexample to claim C3's "throttled, not lost" part: with cap 1, the
seed page's second link `/b/` is discovered (it survives extraction and is
eligible) but the `break` (src lines 370-372) discards it; the crawl then
terminates (empty queue) without `/b/` ever being dispatched or visited,
while the identical crawl with cap 2 visits it. -/
theorem c3_links_lost :
    "http://e.com/b/" ∈ extract_links capCrawler1 (capHrefs "pageS") "http://e.com/" ∧
    is_allowed capCrawler1 "http://e.com/b/" = true ∧
    (runCrawl capCrawler1 capFetch capHrefs lossSchedule).queue.length = 0 ∧
    "http://e.com/b/" ∉
      ((runCrawl capCrawler1 capFetch capHrefs lossSchedule).log.map Prod.fst) ∧
    "http://e.com/b/" ∉ (runCrawl capCrawler1 capFetch capHrefs lossSchedule).visited ∧
    "http://e.com/b/" ∈ (runCrawl capCrawler2 capFetch capHrefs lossSchedule2).visited := by
  refine ⟨by decide, by decide, by decide, by decide, by decide, by decide⟩

/-- Claim C3 (amended): for every crawler with cap ≥ 1, every collaborator
behaviour and every schedule, at most `concurrency` futures are live — in
particular at most that many in Fetching state (first-polled, uncompleted) —
globally across the whole traversal; however, links discovered while the
bound is reached are dropped rather than dispatched later (see
`c3_links_lost`). -/
theorem c3_cap_bound (c : Crawler) (fetch : String → Option String)
    (hrefs : String → List String) (evs : List Ev) (hcap : 1 ≤ c.concurrency) :
    ((runCrawl c fetch hrefs evs).queue.filter (fun t => t.polled)).length ≤ c.concurrency ∧
    (runCrawl c fetch hrefs evs).queue.length ≤ c.concurrency := by
  have h := runCrawl_len c fetch hrefs evs hcap
  exact ⟨le_trans (List.length_filter_le _ _) h, h⟩

/-- Witness for `c3_cap_bound` at a concrete crawl. -/
theorem c3_cap_bound_w :
    ((runCrawl capCrawler1 capFetch capHrefs lossSchedule).queue.filter
      (fun t => t.polled)).length ≤ capCrawler1.concurrency ∧
    (runCrawl capCrawler1 capFetch capHrefs lossSchedule).queue.length ≤
      capCrawler1.concurrency :=
  c3_cap_bound capCrawler1 capFetch capHrefs lossSchedule (by decide)

/-- Counterexample to claim C4: the seed URL is inserted into the visited set
verbatim (src line 321 passes `base_url` straight to `process_url`'s
insertion), so a seed carrying a fragment appears in VisitedSet with its
`#...` component, violating "never contains a fragment". -/
theorem c4_seed_not_normalized :
    SilentCrawler.new "http://example.com/#top" 3 false 10 none = some fragCrawler ∧
    "http://example.com/#top" ∈
      (runCrawl fragCrawler (fun _ => none) (fun _ => []) [Ev.poll 0]).visited ∧
    '#' ∈ "http://example.com/#top".data := by
  refine ⟨rfl, by decide, by decide⟩

/-- Claim C4 (amended): every element of the visited set other than the seed
entry is a normalization output and hence normalized — it contains no `#`,
and whenever it parses to a URL with a nonempty path whose last segment has
no `.`, it ends in `/`.  The seed entry itself is stored verbatim and may
violate both parts (see `c4_seed_not_normalized`). -/
theorem c4_visited_normalized (c : Crawler) (fetch : String → Option String)
    (hrefs : String → List String) (evs : List Ev) :
    ∀ u ∈ (runCrawl c fetch hrefs evs).visited,
      u = c.base_url ∨ normalizedTarget u = true := by
  have h := runCrawl_inv c fetch hrefs evs (fun u => normalizedTarget u = true) ?hq
  case hq =>
    intro hs src x hx
    obtain ⟨_, l, hl⟩ := extract_links_mem c hs src x hx
    exact normalize_normalizedTarget l src x hl
  exact h.1

/-- Witness for `c4_visited_normalized` at a concrete crawl. -/
theorem c4_visited_normalized_w :
    "http://e.com/a/" = diamondCrawler.base_url ∨
      normalizedTarget "http://e.com/a/" = true :=
  c4_visited_normalized diamondCrawler diamondFetch diamondHrefs raceSchedule
    "http://e.com/a/" (by decide)

/-- Counterexample to claim C5: the code appends `/` only when the resolved
path is additionally nonempty (src line 210), a condition the claim omits.
For the non-special-scheme link `foo://h` (empty parsed path, last segment
`""` without `.`, string not ending in `/`) the claim's rule demands
`foo://h/` while `normalize_url` returns `foo://h`. -/
theorem c5_empty_path_divergence :
    normalize_url "foo://h" "http://e.com/" = some "foo://h" ∧
    normalizeSpecC5 "foo://h" "http://e.com/" = some "foo://h/" ∧
    normalize_url "foo://h" "http://e.com/" ≠ normalizeSpecC5 "foo://h" "http://e.com/" := by
  refine ⟨rfl, rfl, by decide⟩

/-- Claim C5 (amended): `normalize_url` succeeds exactly when the source URL
parses and the link resolves against it; on success the result is the
resolved URL's serialization with the fragment stripped, with `/` appended
exactly when the resolved path is nonempty, its last segment contains no
`.`, and the string does not already end in `/`; and a link whose
normalization fails is dropped by the extractor. -/
theorem c5_normalize_contract (l s : String) :
    ((normalize_url l s).isSome = true ↔
      ∃ b u, Url.parse s = some b ∧ Url.join b l = some u) ∧
    (∀ b u, Url.parse s = some b → Url.join b l = some u →
      normalize_url l s = some (
        if u.path.data ≠ [] ∧ containsDot (lastSegChars u.path.data) = false ∧
            endsWithSlash (stripFrag u.render) = false
        then stripFrag u.render ++ "/" else stripFrag u.render)) ∧
    (∀ c : Crawler, normalize_url l s = none → extract_links c [l] s = []) := by
  refine ⟨normalize_err l s, ?_, ?_⟩
  · intro b u hb hj
    rw [normalize_shape l s b u hb hj]
    simp only [postProcess]
  · intro c h
    exact normalize_fail_dropped c l s h

/-- Witness for `c5_normalize_contract` at a concrete link. -/
theorem c5_normalize_contract_w :
    normalize_url "a" "http://e.com/" = some (
      if (⟨"http", some "e.com", "/a", none, none⟩ : Url).path.data ≠ [] ∧
          containsDot (lastSegChars (⟨"http", some "e.com", "/a", none,
            none⟩ : Url).path.data) = false ∧
          endsWithSlash (stripFrag (Url.render ⟨"http", some "e.com", "/a", none,
            none⟩)) = false
      then stripFrag (Url.render ⟨"http", some "e.com", "/a", none, none⟩) ++ "/"
      else stripFrag (Url.render ⟨"http", some "e.com", "/a", none, none⟩)) :=
  (c5_normalize_contract "a" "http://e.com/").2.1
    ⟨"http", some "e.com", "/", none, none⟩
    ⟨"http", some "e.com", "/a", none, none⟩ rfl rfl

/-- Claim C6 (confirmed): every URL in the visited set of any scheduled run
of a constructed crawler is same-domain (the seed's host equals the base
domain by construction, and every other entry survived the
`is_same_domain` filter in `extract_links`); and `is_same_domain` holds for
a URL exactly when it parses with a host `h` that equals the base domain or
ends with `"." ++` the base domain, compared byte-for-byte. -/
theorem c6_scope_containment (seed : String) (d : Nat) (rr : Bool) (cc : Nat)
    (resp : Option (Bool × String)) (c : Crawler) (fetch : String → Option String)
    (hrefs : String → List String) (evs : List Ev)
    (hnew : SilentCrawler.new seed d rr cc resp = some c) :
    (∀ u ∈ (runCrawl c fetch hrefs evs).visited, is_same_domain c u = true) ∧
    (∀ url, is_same_domain c url = true ↔
      ∃ p h, Url.parse url = some p ∧ p.host = some h ∧
        (h = c.base_domain ∨ strEndsWith h ("." ++ c.base_domain) = true)) := by
  constructor
  · have h := runCrawl_inv c fetch hrefs evs (fun u => is_same_domain c u = true) ?hq
    case hq =>
      intro hs src x hx
      exact (extract_links_mem c hs src x hx).1
    intro u hu
    rcases h.1 u hu with h2 | h2
    · rw [h2]
      exact new_same_domain seed d rr cc resp c hnew
    · exact h2
  · intro url
    unfold is_same_domain
    cases hp : Url.parse url with
    | none =>
      simp
    | some p =>
      cases hh : p.host with
      | none => simp [hh]
      | some hdom =>
        simp only [hh]
        constructor
        · intro hb
          rw [Bool.or_eq_true] at hb
          rcases hb with h1 | h1
          · exact ⟨p, hdom, rfl, hh, Or.inl (by simpa using h1)⟩
          · exact ⟨p, hdom, rfl, hh, Or.inr h1⟩
        · rintro ⟨p', h', hpp, hh', hc⟩
          injection hpp with hpp
          subst hpp
          rw [hh] at hh'
          injection hh' with hh'
          subst hh'
          rcases hc with rfl | hc
          · simp
          · simp [hc]

/-- Witness for `c6_scope_containment` at a concrete crawl. -/
theorem c6_scope_containment_w :
    is_same_domain diamondCrawler "http://e.com/a/" = true :=
  (c6_scope_containment "http://e.com/" 3 false 10 none diamondCrawler diamondFetch
    diamondHrefs raceSchedule rfl).1 "http://e.com/a/" (by decide)

/-- Claim C7 (confirmed): `is_allowed` is constantly true when enforcement is
off; with enforcement on and a parsable URL it is true exactly when the path
starts with no disallowed prefix (plain string-prefix test); with an empty
disallow set it is always true; and a crawler constructed with a failed
robots fetch (`none`) has an empty disallow set, hence allows every URL. -/
theorem c7_is_allowed_contract (c : Crawler) (url : String) :
    (c.respect_robots = false → is_allowed c url = true) ∧
    (∀ p, Url.parse url = some p → c.respect_robots = true →
      (is_allowed c url = true ↔
        ∀ d ∈ c.disallowed_paths, strStartsWith p.path d = false)) ∧
    (c.disallowed_paths = [] → is_allowed c url = true) ∧
    (∀ seed dep cc c', SilentCrawler.new seed dep true cc none = some c' →
      c'.disallowed_paths = [] ∧ is_allowed c' url = true) := by
  refine ⟨?_, ?_, ?_, ?_⟩
  · intro h
    simp [is_allowed, h]
  · intro p hp hr
    simp only [is_allowed, hr, hp]
    simp [List.any_eq_false]
  · intro h
    unfold is_allowed
    split
    · rfl
    · cases hp2 : Url.parse url with
      | some p => simp [h]
      | none => rfl
  · intro seed dep cc2 c' hc'
    obtain ⟨_, _, _, _, _, hdis⟩ := new_fields seed dep true cc2 none c' hc'
    have hde : c'.disallowed_paths = [] := by rw [hdis]; rfl
    refine ⟨hde, ?_⟩
    unfold is_allowed
    split
    · rfl
    · cases hp2 : Url.parse url with
      | some p => simp [hde]
      | none => rfl

/-- Witness for `c7_is_allowed_contract` at a concrete crawler and URL. -/
theorem c7_is_allowed_contract_w : is_allowed capCrawler1 "http://e.com/x" = true :=
  (c7_is_allowed_contract capCrawler1 "http://e.com/x").1 rfl

/-- Counterexample to claim C8: `split(':').nth(1)` (src line 149) takes the
segment between the first and second colon, not the entire remainder, so a
disallowed path containing `:` is truncated: body `"Disallow: /a:b"` yields
`"/a"`, while the claim's reading (`robotsSpec`) yields `"/a:b"`. -/
theorem c8_colon_truncated :
    parse_robots_txt (some (true, "Disallow: /a:b")) = ["/a"] ∧
    robotsSpec (some (true, "Disallow: /a:b")) = ["/a:b"] ∧
    parse_robots_txt (some (true, "Disallow: /a:b")) ≠
      robotsSpec (some (true, "Disallow: /a:b")) := by
  refine ⟨by decide, by decide, by decide⟩

/-- Claim C8 (amended): after a successful robots fetch, the disallow set
contains exactly the strings obtained per line by trimming and case-folding
the line and, when it starts with `disallow:`, trimming the segment strictly
between the first and the second `:` (the entire remainder when no second
`:` occurs) and keeping it if nonempty.  Other directives contribute
nothing. -/
theorem c8_robots_membership (text p : String) :
    p ∈ parse_robots_txt (some (true, text)) ↔
      ∃ ln ∈ rustLines text,
        (strStartsWith (asciiLower (strTrim ln)) "disallow:" = true ∧
          ((strSplitOnChar ':' (asciiLower (strTrim ln))).get? 1).map strTrim = some p ∧
          p ≠ "") := by
  unfold parse_robots_txt
  rw [robots_foldl_mem]
  simp

/-- Counterexample to claim C9: the seed `https://` carries a scheme, so the
claim asserts construction succeeds and no `http://` prefix is applied; the
code prefixes exactly on the literal `http://`/`https://` tests, parses
`https://` itself and fails on the empty host, so construction returns the
`InvalidSeedError`. -/
theorem c9_scheme_seed_fails :
    hasSchemeStr "https://" = true ∧
    SilentCrawler.new "https://" 3 false 10 none = none := ⟨rfl, rfl⟩

/-- Claim C9 (amended): construction succeeds exactly when the seed, after a
default `http://` prefix applied if and only if the seed starts with neither
`http://` nor `https://` (not: if it has no scheme), parses as a URL with a
host. -/
theorem c9_construction (seed : String) (d : Nat) (rr : Bool) (cc : Nat)
    (resp : Option (Bool × String)) :
    ((SilentCrawler.new seed d rr cc resp).isSome = true ↔
      ∃ p h, Url.parse (prefixSeed seed) = some p ∧ p.host = some h) ∧
    prefixSeed seed =
      (if !(strStartsWith seed "http://") && !(strStartsWith seed "https://")
       then "http://" ++ seed else seed) := by
  refine ⟨⟨?_, ?_⟩, rfl⟩
  · intro h
    obtain ⟨c, hc⟩ := Option.isSome_iff_exists.mp h
    obtain ⟨_, ⟨p, hp, hh⟩, _⟩ := new_fields seed d rr cc resp c hc
    exact ⟨p, c.base_domain, hp, hh⟩
  · rintro ⟨p, hdom, hp, hh⟩
    unfold SilentCrawler.new
    rw [hp]
    dsimp only
    rw [hh]
    rfl

/-- Claim C10 (confirmed): normalization is idempotent — every successful
output, re-normalized against any parseable base (itself included, since
outputs are parseable), is returned unchanged. -/
theorem c10_normalize_idempotent (u base base2 r : String)
    (h1 : normalize_url u base = some r) (h2 : (Url.parse base2).isSome = true) :
    normalize_url r base2 = some r := by
  obtain ⟨b, u0, hb, hj, rfl⟩ := normalize_cases u base r h1
  exact normalize_fixed u0 (join_WF b u u0 (parse_WF _ _ hb) hj) base2 h2

/-- Witness for `c10_normalize_idempotent` at a concrete link. -/
theorem c10_normalize_idempotent_w :
    normalize_url "http://e.com/a/" "http://x.org/" = some "http://e.com/a/" :=
  c10_normalize_idempotent "a" "http://e.com/" "http://x.org/" "http://e.com/a/" rfl rfl
